import Mathlib

/-!
Verification of the cyclic-graph library in `src/graphs/src/` (modules
`rc_graph.rs`, `rc_refcell_graph.rs`, `ref_graph.rs`).

Embedding choices:
* Every `Rc<RefCell<Node>>` (resp. arena-allocated `&Node`) is a cell in a
  heap; a handle is the cell's index (`Nat`).  A heap is a `List Node`.
* `&'static str` labels are `String`s.
* The `HashSet<&'static str>` seen set is a duplicate-free `List String`
  (the code inserts a label only after a failed membership test, so the
  list never acquires duplicates); `insert` appends.
* The recursive `traverse` is embedded with an explicit fuel parameter
  (structural recursion on the fuel); `bound g` fuel is proved sufficient,
  and the value is proved independent of the fuel above the bound, which is
  the termination statement.
* The visitor `f` of the Rust code is infallible, so `traverse` is embedded
  as returning the sequence of labels passed to the visitor together with
  the final seen set.  A separate embedding `traverseE` gives the visitor
  an `Except` result, modelling a visitor failure (panic) and its
  propagation by unwinding.
* `Vec` indexing `v[0]` is embedded as `l[0]?`, with `none` standing for
  Rust's bounds-check panic.
-/

namespace Graphs

/-! ### `rc_refcell_graph.rs` -/

namespace RcRefcellGraph

/-- A node of `rc_refcell_graph.rs`: `datum: &'static str`,
`next: Vec<Rc<RefCell<Node>>>` (edge targets as heap indices). -/
structure Node where
  datum : String
  next : List Nat
deriving Repr, DecidableEq

/-- The heap of `Rc<RefCell<Node>>` cells; a handle is an index. -/
abbrev Heap := List Node

/-- Placeholder returned when dereferencing a dangling index; `Rc` handles
cannot dangle, so all statements about real executions use valid indices. -/
def defaultNode : Node := ⟨"", []⟩

/-- Dereference a handle. -/
def getNode (g : Heap) (i : Nat) : Node := g.getD i defaultNode

/-- The loop `for n in &self.next { n.borrow().traverse(f, seen); }`:
runs `step` (a `traverse` call) on each edge target in order, threading the
seen set and concatenating the visit sequences. -/
def traverseChildren (step : Nat → List String → List String × List String) :
    List Nat → List String → List String × List String
  | [], seen => ([], seen)
  | e :: rest, seen =>
    let p := step e seen
    let q := traverseChildren step rest p.2
    (p.1 ++ q.1, q.2)

/-- `Node::traverse`, fuelled.  Returns the sequence of labels passed to the
visitor `f` and the final seen set.  At fuel `fuel + 1` this is a literal
transcription of the Rust body:
`if seen.contains(&self.datum) { return; } f(self.datum);
seen.insert(self.datum); for n in &self.next { n.borrow().traverse(f, seen); }`.
Fuel `0` is the artefact of embedding general recursion; `traverseF_stable`
shows it is never hit from fuel `bound g`. -/
def traverseF (g : Heap) : Nat → Nat → List String → List String × List String
  | 0, _, seen => ([], seen)
  | fuel + 1, i, seen =>
    let n := getNode g i
    if n.datum ∈ seen then ([], seen)
    else
      let p := traverseChildren (traverseF g fuel) n.next (seen ++ [n.datum])
      (n.datum :: p.1, p.2)

/-- Sufficient fuel for a heap: recursion depth is bounded by the number of
distinct labels plus one. -/
def bound (g : Heap) : Nat := g.length + 1

/-- `Node::traverse` at sufficient fuel: the function the Rust code runs. -/
def traverse (g : Heap) (i : Nat) (seen : List String) :
    List String × List String :=
  traverseF g (bound g) i seen

/-- `Node::first`: `self.next[0].clone()`.  `none` models the
index-out-of-bounds panic of `Vec` indexing on an empty edge list. -/
def Node.first (n : Node) : Option Nat := n.next[0]?

/-- `Node::new(datum)`: allocate a fresh cell with empty edges, return its
handle. -/
def newNode (g : Heap) (datum : String) : Heap × Nat :=
  (g ++ [⟨datum, []⟩], g.length)

/-- `node.next.push(target)` through a `borrow_mut` of cell `i`. -/
def pushEdge (g : Heap) (i j : Nat) : Heap :=
  g.set i ⟨(getNode g i).datum, (getNode g i).next ++ [j]⟩

/-- `init()`: build the six-node graph A→[B,C,D], C→[E,F,A] and return the
root handle. -/
def init : Heap × Nat :=
  let (g, root) := newNode [] "A"
  let (g, b) := newNode g "B"
  let (g, c) := newNode g "C"
  let (g, d) := newNode g "D"
  let (g, e) := newNode g "E"
  let (g, f) := newNode g "F"
  let g := pushEdge g root b
  let g := pushEdge g root c
  let g := pushEdge g root d
  let g := pushEdge g c e
  let g := pushEdge g c f
  let g := pushEdge g c root
  (g, root)

/-- Number of labels in the heap not yet seen: the termination measure. -/
def missing (g : Heap) (seen : List String) : Nat :=
  ((g.map Node.datum).toFinset \ seen.toFinset).card

/-- State-threading form of the edge loop: the heap of cells is passed
through every `traverse` call, so that "traversal never writes the heap"
is a statement and not a modelling convention. -/
def traverseChildrenS
    (step : Heap → Nat → List String → Heap × List String × List String) :
    Heap → List Nat → List String → Heap × List String × List String
  | g, [], seen => (g, [], seen)
  | g, e :: rest, seen =>
    let p := step g e seen
    let q := traverseChildrenS step p.1 rest p.2.2
    (q.1, p.2.1 ++ q.2.1, q.2.2)

/-- State-threading form of `Node::traverse`: same body as `traverseF`,
with the heap passed along (the body only ever reads it). -/
def traverseS : Nat → Heap → Nat → List String → Heap × List String × List String
  | 0, g, _, seen => (g, [], seen)
  | fuel + 1, g, i, seen =>
    let n := getNode g i
    if n.datum ∈ seen then (g, [], seen)
    else
      let p := traverseChildrenS (traverseS fuel) g n.next (seen ++ [n.datum])
      (p.1, n.datum :: p.2.1, p.2.2)

/-- Edge loop for a fallible visitor: when a `traverse` call reports a
failure, stop at once and propagate it together with the state reached. -/
def traverseChildrenE {ε : Type}
    (step : Nat → List String → List String × List String × Option ε) :
    List Nat → List String → List String × List String × Option ε
  | [], seen => ([], seen, none)
  | e :: rest, seen =>
    let p := step e seen
    match p.2.2 with
    | some err => (p.1, p.2.1, some err)
    | none =>
      let q := traverseChildrenE step rest p.2.1
      (p.1 ++ q.1, q.2.1, q.2.2)

/-- `Node::traverse` with a visitor that may fail: the Rust visitor can only
fail by panicking, and the unwinding that propagates the panic out of the
recursion is modelled by the `Option ε` component (`some err` = unwinding).
As in the source, `f(self.datum)` runs before `seen.insert(self.datum)`, so
a failing call leaves its own label out of the seen set. -/
def traverseE {ε : Type} (g : Heap) (f : String → Except ε Unit) :
    Nat → Nat → List String → List String × List String × Option ε
  | 0, _, seen => ([], seen, none)
  | fuel + 1, i, seen =>
    let n := getNode g i
    if n.datum ∈ seen then ([], seen, none)
    else
      match f n.datum with
      | Except.error err => ([], seen, some err)
      | Except.ok _ =>
        let p := traverseChildrenE (traverseE g f fuel) n.next (seen ++ [n.datum])
        (n.datum :: p.1, p.2.1, p.2.2)

end RcRefcellGraph

/-! ### `rc_graph.rs` (same algorithm, field `edges`) -/

namespace RcGraph

/-- A node of `rc_graph.rs`: `datum: &'static str`,
`edges: Vec<Rc<RefCell<Node>>>`. -/
structure Node where
  datum : String
  edges : List Nat
deriving Repr, DecidableEq

abbrev Heap := List Node

def defaultNode : Node := ⟨"", []⟩

def getNode (g : Heap) (i : Nat) : Node := g.getD i defaultNode

/-- The loop `for n in &self.edges { n.borrow().traverse(f, seen); }`. -/
def traverseChildren (step : Nat → List String → List String × List String) :
    List Nat → List String → List String × List String
  | [], seen => ([], seen)
  | e :: rest, seen =>
    let p := step e seen
    let q := traverseChildren step rest p.2
    (p.1 ++ q.1, q.2)

/-- `Node::traverse` of `rc_graph.rs`, fuelled. -/
def traverseF (g : Heap) : Nat → Nat → List String → List String × List String
  | 0, _, seen => ([], seen)
  | fuel + 1, i, seen =>
    let n := getNode g i
    if n.datum ∈ seen then ([], seen)
    else
      let p := traverseChildren (traverseF g fuel) n.edges (seen ++ [n.datum])
      (n.datum :: p.1, p.2)

def bound (g : Heap) : Nat := g.length + 1

def traverse (g : Heap) (i : Nat) (seen : List String) :
    List String × List String :=
  traverseF g (bound g) i seen

/-- `Node::first`: `self.edges[0].clone()`; `none` is the bounds-check
panic. -/
def Node.first (n : Node) : Option Nat := n.edges[0]?

def newNode (g : Heap) (datum : String) : Heap × Nat :=
  (g ++ [⟨datum, []⟩], g.length)

def pushEdge (g : Heap) (i j : Nat) : Heap :=
  g.set i ⟨(getNode g i).datum, (getNode g i).edges ++ [j]⟩

/-- `init()` of `rc_graph.rs`. -/
def init : Heap × Nat :=
  let (g, root) := newNode [] "A"
  let (g, b) := newNode g "B"
  let (g, c) := newNode g "C"
  let (g, d) := newNode g "D"
  let (g, e) := newNode g "E"
  let (g, f) := newNode g "F"
  let g := pushEdge g root b
  let g := pushEdge g root c
  let g := pushEdge g root d
  let g := pushEdge g c e
  let g := pushEdge g c f
  let g := pushEdge g c root
  (g, root)

end RcGraph

/-! ### `ref_graph.rs` (arena + `UnsafeCell`, same algorithm) -/

namespace RefGraph

/-- A node of `ref_graph.rs`: `datum: &'static str`,
`edges: UnsafeCell<Vec<&'a Node<'a>>>`; the arena-allocated `&Node`
references are heap indices, the `UnsafeCell` is interior mutability only
and adds nothing to the value. -/
structure Node where
  datum : String
  edges : List Nat
deriving Repr, DecidableEq

abbrev Heap := List Node

def defaultNode : Node := ⟨"", []⟩

def getNode (g : Heap) (i : Nat) : Node := g.getD i defaultNode

/-- The loop `for n in &(*self.edges.get()) { n.traverse(f, seen); }`. -/
def traverseChildren (step : Nat → List String → List String × List String) :
    List Nat → List String → List String × List String
  | [], seen => ([], seen)
  | e :: rest, seen =>
    let p := step e seen
    let q := traverseChildren step rest p.2
    (p.1 ++ q.1, q.2)

/-- `Node::traverse` of `ref_graph.rs`, fuelled. -/
def traverseF (g : Heap) : Nat → Nat → List String → List String × List String
  | 0, _, seen => ([], seen)
  | fuel + 1, i, seen =>
    let n := getNode g i
    if n.datum ∈ seen then ([], seen)
    else
      let p := traverseChildren (traverseF g fuel) n.edges (seen ++ [n.datum])
      (n.datum :: p.1, p.2)

def bound (g : Heap) : Nat := g.length + 1

def traverse (g : Heap) (i : Nat) (seen : List String) :
    List String × List String :=
  traverseF g (bound g) i seen

/-- `Node::first`: `(*self.edges.get())[0]`; `none` is the bounds-check
panic. -/
def Node.first (n : Node) : Option Nat := n.edges[0]?

/-- `Node::new(datum, arena)`: `arena.alloc(...)`, a fresh cell in the
arena. -/
def newNode (g : Heap) (datum : String) : Heap × Nat :=
  (g ++ [⟨datum, []⟩], g.length)

def pushEdge (g : Heap) (i j : Nat) : Heap :=
  g.set i ⟨(getNode g i).datum, (getNode g i).edges ++ [j]⟩

/-- `init(arena)` of `ref_graph.rs`. -/
def init : Heap × Nat :=
  let (g, root) := newNode [] "A"
  let (g, b) := newNode g "B"
  let (g, c) := newNode g "C"
  let (g, d) := newNode g "D"
  let (g, e) := newNode g "E"
  let (g, f) := newNode g "F"
  let g := pushEdge g root b
  let g := pushEdge g root c
  let g := pushEdge g root d
  let g := pushEdge g c e
  let g := pushEdge g c f
  let g := pushEdge g c root
  (g, root)

end RefGraph

/-- Field-for-field conversion between the node types of
`rc_refcell_graph.rs` (field `next`) and `rc_graph.rs` (field `edges`). -/
def rcOfRcRefcell (n : RcRefcellGraph.Node) : RcGraph.Node := ⟨n.datum, n.next⟩

/-- Field-for-field conversion between the node types of
`rc_refcell_graph.rs` and `ref_graph.rs`. -/
def refOfRcRefcell (n : RcRefcellGraph.Node) : RefGraph.Node := ⟨n.datum, n.next⟩

namespace RcRefcellGraph

/-! Lemmas: the seen set only grows, by exactly the visited labels. -/

lemma traverseChildren_seen (step : Nat → List String → List String × List String)
    (hstep : ∀ e s, (step e s).2 = s ++ (step e s).1) :
    ∀ es seen, (traverseChildren step es seen).2 =
      seen ++ (traverseChildren step es seen).1 := by
  intro es
  induction es with
  | nil => intro seen; simp [traverseChildren]
  | cons e rest ih =>
    intro seen
    simp only [traverseChildren]
    rw [ih, hstep, List.append_assoc]

lemma traverseF_seen (g : Heap) :
    ∀ fuel i seen, (traverseF g fuel i seen).2 =
      seen ++ (traverseF g fuel i seen).1 := by
  intro fuel
  induction fuel with
  | zero => intro i seen; simp [traverseF]
  | succ F ih =>
    intro i seen
    simp only [traverseF]
    by_cases h : (getNode g i).datum ∈ seen
    · simp [h]
    · simp only [h, if_false]
      rw [traverseChildren_seen (traverseF g F) ih, List.append_assoc]
      simp

lemma missing_le (g : Heap) (seen : List String) : missing g seen ≤ g.length := by
  calc ((g.map Node.datum).toFinset \ seen.toFinset).card
      ≤ (g.map Node.datum).toFinset.card :=
        Finset.card_le_card (Finset.sdiff_subset)
    _ ≤ (g.map Node.datum).length := List.toFinset_card_le _
    _ = g.length := List.length_map _ _

lemma missing_mono (g : Heap) {s s' : List String} (h : ∀ x ∈ s, x ∈ s') :
    missing g s' ≤ missing g s := by
  apply Finset.card_le_card
  apply Finset.sdiff_subset_sdiff (le_refl _)
  intro x hx
  simp only [List.mem_toFinset] at hx ⊢
  exact h x hx

lemma missing_strict (g : Heap) {a : String} {seen : List String}
    (ha : a ∈ g.map Node.datum) (hs : a ∉ seen) :
    missing g (seen ++ [a]) < missing g seen := by
  apply Finset.card_lt_card
  rw [Finset.ssubset_iff_of_subset]
  · refine ⟨a, ?_, ?_⟩
    · simp [Finset.mem_sdiff, List.mem_toFinset, ha, hs]
    · simp [Finset.mem_sdiff, List.mem_toFinset]
  · apply Finset.sdiff_subset_sdiff (le_refl _)
    intro x hx
    simp only [List.mem_toFinset] at hx ⊢
    exact List.mem_append_left _ hx

lemma getNode_datum_mem {g : Heap} {i : Nat} (h : i < g.length) :
    (getNode g i).datum ∈ g.map Node.datum := by
  have : getNode g i = g.get ⟨i, h⟩ := by
    simp [getNode, List.getD_eq_getElem?_getD, List.getElem?_eq_getElem h]
  rw [this]
  exact List.mem_map_of_mem _ (List.get_mem g i h)

lemma getNode_oob {g : Heap} {i : Nat} (h : ¬ i < g.length) :
    getNode g i = defaultNode := by
  simp [getNode, List.getD_eq_getElem?_getD, List.getElem?_eq_none (Nat.le_of_not_lt h)]

/-! Lemmas: above the measure, the result does not depend on the fuel — the
recursion of `Node::traverse` terminates. -/

lemma traverseF_succ_eq (g : Heap) (F i : Nat) (seen : List String) :
    traverseF g (F + 1) i seen =
      if (getNode g i).datum ∈ seen then ([], seen)
      else ((getNode g i).datum ::
        (traverseChildren (traverseF g F) (getNode g i).next
          (seen ++ [(getNode g i).datum])).1,
        (traverseChildren (traverseF g F) (getNode g i).next
          (seen ++ [(getNode g i).datum])).2) := rfl

lemma traverseChildren_stable (g : Heap) (F : Nat)
    (hstep : ∀ i seen, missing g seen < F →
      traverseF g F i seen = traverseF g (F + 1) i seen) :
    ∀ es seen, missing g seen < F →
      traverseChildren (traverseF g F) es seen =
        traverseChildren (traverseF g (F + 1)) es seen := by
  intro es
  induction es with
  | nil => intro seen _; simp [traverseChildren]
  | cons e rest ih =>
    intro seen hm
    simp only [traverseChildren]
    rw [← hstep e seen hm]
    have hsub : missing g (traverseF g F e seen).2 ≤ missing g seen := by
      apply missing_mono
      intro x hx
      rw [traverseF_seen]
      exact List.mem_append_left _ hx
    rw [ih _ (lt_of_le_of_lt hsub hm)]

lemma traverseF_stable_succ (g : Heap) :
    ∀ F i seen, missing g seen < F →
      traverseF g F i seen = traverseF g (F + 1) i seen := by
  intro F
  induction F with
  | zero => intro i seen h; omega
  | succ F ih =>
    intro i seen hm
    rw [traverseF_succ_eq g F, traverseF_succ_eq g (F + 1)]
    by_cases hseen : (getNode g i).datum ∈ seen
    · simp [hseen]
    · simp only [hseen, if_false]
      by_cases hi : i < g.length
      · have hlt : missing g (seen ++ [(getNode g i).datum]) < F := by
          have h1 := missing_strict g (getNode_datum_mem hi) hseen
          omega
        rw [traverseChildren_stable g F ih _ _ hlt]
      · rw [getNode_oob hi]
        simp [defaultNode, traverseChildren]

lemma traverseF_stable (g : Heap) (i : Nat) (seen : List String) (F F' : Nat)
    (h : missing g seen < F) (hle : F ≤ F') :
    traverseF g F i seen = traverseF g F' i seen := by
  induction F', hle using Nat.le_induction with
  | base => rfl
  | succ F'' hle ih =>
    rw [ih]
    exact traverseF_stable_succ g F'' i seen (lt_of_lt_of_le h hle)

lemma missing_lt_bound (g : Heap) (seen : List String) :
    missing g seen < bound g :=
  lt_of_le_of_lt (missing_le g seen) (by simp [bound])

/-! Lemmas: the state-threading traversal never writes the heap and computes
what `traverseF` computes. -/

lemma traverseChildrenS_eq (F : Nat)
    (ih : ∀ (g : Heap) (i : Nat) (seen : List String),
      traverseS F g i seen = (g, traverseF g F i seen)) :
    ∀ (es : List Nat) (g : Heap) (seen : List String),
      traverseChildrenS (traverseS F) g es seen =
        (g, traverseChildren (traverseF g F) es seen) := by
  intro es
  induction es with
  | nil => intro g seen; simp [traverseChildrenS, traverseChildren]
  | cons e rest ihes =>
    intro g seen
    simp only [traverseChildrenS, traverseChildren, ih, ihes]

lemma traverseS_eq :
    ∀ (fuel : Nat) (g : Heap) (i : Nat) (seen : List String),
      traverseS fuel g i seen = (g, traverseF g fuel i seen) := by
  intro fuel
  induction fuel with
  | zero => intro g i seen; simp [traverseS, traverseF]
  | succ F ih =>
    intro g i seen
    simp only [traverseS, traverseF]
    by_cases h : (getNode g i).datum ∈ seen
    · simp [h]
    · simp [h, traverseChildrenS_eq F ih]

/-! Lemmas: the fallible-visitor traversal adds to the seen set exactly the
labels it visited, and coincides with `traverseF` when the visitor never
fails. -/

lemma traverseChildrenE_seen {ε : Type}
    (step : Nat → List String → List String × List String × Option ε)
    (hstep : ∀ e s, (step e s).2.1 = s ++ (step e s).1) :
    ∀ es seen, (traverseChildrenE step es seen).2.1 =
      seen ++ (traverseChildrenE step es seen).1 := by
  intro es
  induction es with
  | nil => intro seen; simp [traverseChildrenE]
  | cons e rest ih =>
    intro seen
    simp only [traverseChildrenE]
    cases h : (step e seen).2.2 with
    | some err => simpa using hstep e seen
    | none => simp [ih, hstep e seen, List.append_assoc]

lemma traverseE_seen {ε : Type} (g : Heap) (f : String → Except ε Unit) :
    ∀ fuel i seen, (traverseE g f fuel i seen).2.1 =
      seen ++ (traverseE g f fuel i seen).1 := by
  intro fuel
  induction fuel with
  | zero => intro i seen; simp [traverseE]
  | succ F ih =>
    intro i seen
    simp only [traverseE]
    by_cases h : (getNode g i).datum ∈ seen
    · simp [h]
    · cases hf : f (getNode g i).datum with
      | error err => simp [h, hf]
      | ok u =>
        simp only [h, if_false, hf]
        rw [traverseChildrenE_seen _ ih, List.append_assoc]
        simp

lemma traverseChildrenE_ok {ε : Type} (g : Heap) (F : Nat)
    (ih : ∀ i seen, traverseE g (fun _ => (Except.ok () : Except ε Unit)) F i seen =
      ((traverseF g F i seen).1, (traverseF g F i seen).2, none)) :
    ∀ es seen,
      traverseChildrenE (traverseE g (fun _ => (Except.ok () : Except ε Unit)) F) es seen =
        ((traverseChildren (traverseF g F) es seen).1,
         (traverseChildren (traverseF g F) es seen).2, none) := by
  intro es
  induction es with
  | nil => intro seen; simp [traverseChildrenE, traverseChildren]
  | cons e rest ihes =>
    intro seen
    simp only [traverseChildrenE, traverseChildren, ih, ihes]

lemma traverseE_ok {ε : Type} (g : Heap) :
    ∀ fuel i seen,
      traverseE g (fun _ => (Except.ok () : Except ε Unit)) fuel i seen =
        ((traverseF g fuel i seen).1, (traverseF g fuel i seen).2, none) := by
  intro fuel
  induction fuel with
  | zero => intro i seen; simp [traverseE, traverseF]
  | succ F ih =>
    intro i seen
    simp only [traverseE, traverseF]
    by_cases h : (getNode g i).datum ∈ seen
    · simp [h]
    · simp [h, traverseChildrenE_ok g F ih]

lemma traverseChildren_congr
    (step step' : Nat → List String → List String × List String)
    (h : ∀ e s, step e s = step' e s) :
    ∀ es seen, traverseChildren step es seen = traverseChildren step' es seen := by
  intro es
  induction es with
  | nil => intro seen; rfl
  | cons e rest ih =>
    intro seen
    simp only [traverseChildren, h, ih]

end RcRefcellGraph

/-! Lemmas: `rc_graph.rs` and `ref_graph.rs` run the same algorithm as
`rc_refcell_graph.rs` on the converted heap. -/

lemma rcGetNode_map (g : RcRefcellGraph.Heap) (i : Nat) :
    RcGraph.getNode (g.map rcOfRcRefcell) i =
      rcOfRcRefcell (RcRefcellGraph.getNode g i) := by
  simp only [RcGraph.getNode, RcRefcellGraph.getNode,
    List.getD_eq_getElem?_getD, List.getElem?_map]
  cases g[i]? <;>
    simp [rcOfRcRefcell, RcGraph.defaultNode, RcRefcellGraph.defaultNode]

lemma refGetNode_map (g : RcRefcellGraph.Heap) (i : Nat) :
    RefGraph.getNode (g.map refOfRcRefcell) i =
      refOfRcRefcell (RcRefcellGraph.getNode g i) := by
  simp only [RefGraph.getNode, RcRefcellGraph.getNode,
    List.getD_eq_getElem?_getD, List.getElem?_map]
  cases g[i]? <;>
    simp [refOfRcRefcell, RefGraph.defaultNode, RcRefcellGraph.defaultNode]

lemma rcChildren_eq (step : Nat → List String → List String × List String) :
    ∀ es seen, RcGraph.traverseChildren step es seen =
      RcRefcellGraph.traverseChildren step es seen := by
  intro es
  induction es with
  | nil => intro seen; rfl
  | cons e rest ih =>
    intro seen
    simp only [RcGraph.traverseChildren, RcRefcellGraph.traverseChildren, ih]

lemma refChildren_eq (step : Nat → List String → List String × List String) :
    ∀ es seen, RefGraph.traverseChildren step es seen =
      RcRefcellGraph.traverseChildren step es seen := by
  intro es
  induction es with
  | nil => intro seen; rfl
  | cons e rest ih =>
    intro seen
    simp only [RefGraph.traverseChildren, RcRefcellGraph.traverseChildren, ih]

lemma rcTraverseF_map (g : RcRefcellGraph.Heap) :
    ∀ fuel i seen, RcGraph.traverseF (g.map rcOfRcRefcell) fuel i seen =
      RcRefcellGraph.traverseF g fuel i seen := by
  intro fuel
  induction fuel with
  | zero => intro i seen; rfl
  | succ F ih =>
    intro i seen
    have hstep : RcGraph.traverseF (g.map rcOfRcRefcell) F =
        RcRefcellGraph.traverseF g F :=
      funext fun j => funext fun s => ih j s
    simp only [RcGraph.traverseF, RcRefcellGraph.traverseF, rcGetNode_map, hstep,
      rcChildren_eq, rcOfRcRefcell]

lemma refTraverseF_map (g : RcRefcellGraph.Heap) :
    ∀ fuel i seen, RefGraph.traverseF (g.map refOfRcRefcell) fuel i seen =
      RcRefcellGraph.traverseF g fuel i seen := by
  intro fuel
  induction fuel with
  | zero => intro i seen; rfl
  | succ F ih =>
    intro i seen
    have hstep : RefGraph.traverseF (g.map refOfRcRefcell) F =
        RcRefcellGraph.traverseF g F :=
      funext fun j => funext fun s => ih j s
    simp only [RefGraph.traverseF, RcRefcellGraph.traverseF, refGetNode_map, hstep,
      refChildren_eq, refOfRcRefcell]

open RcRefcellGraph

/-- C1: on the graph built by `init`, `traverse` from the root with an empty
seen set passes each of the six labels "A".."F" to the visitor exactly once,
although the graph has a cycle through the root (root → C → root). -/
theorem traverse_visits_six_labels_once :
    ((traverse init.1 init.2 []).1.count "A" = 1 ∧
     (traverse init.1 init.2 []).1.count "B" = 1 ∧
     (traverse init.1 init.2 []).1.count "C" = 1 ∧
     (traverse init.1 init.2 []).1.count "D" = 1 ∧
     (traverse init.1 init.2 []).1.count "E" = 1 ∧
     (traverse init.1 init.2 []).1.count "F" = 1) ∧
    init.2 ∈ (getNode init.1 2).next ∧ 2 ∈ (getNode init.1 init.2).next := by
  decide

/-- C2: starting `traverse` at the built root "A" (edges A→[B,C,D],
C→[E,F,A]) with an empty seen set, the visitor receives the labels in
exactly the sequence A, B, C, E, F, D. -/
theorem traverse_order_from_root :
    (traverse init.1 init.2 []).1 = ["A", "B", "C", "E", "F", "D"] := by
  decide

/-- C3: `traverse` terminates on every heap, cyclic or not: any fuel at
least `bound g` gives the value of `traverse`, and a node whose label is
already in the seen set is skipped without recursion. -/
theorem traverse_terminates (g : Heap) (i : Nat) (seen : List String)
    (fuel : Nat) (h : bound g ≤ fuel) :
    traverseF g fuel i seen = traverse g i seen ∧
    ((getNode g i).datum ∈ seen → traverseF g fuel i seen = ([], seen)) := by
  constructor
  · exact (traverseF_stable g i seen (bound g) fuel (missing_lt_bound g seen) h).symm
  · intro hseen
    cases fuel with
    | zero => simp [bound] at h
    | succ k => rw [traverseF_succ_eq, if_pos hseen]

/-- Witness for C3 at the built graph, fuel 10, with the root already seen. -/
theorem traverse_terminates_witness :
    traverseF init.1 10 init.2 ["A"] = traverse init.1 init.2 ["A"] ∧
    traverseF init.1 10 init.2 ["A"] = ([], ["A"]) :=
  ⟨(traverse_terminates init.1 init.2 ["A"] 10 (by decide)).1,
   (traverse_terminates init.1 init.2 ["A"] 10 (by decide)).2 (by decide)⟩

/-- C4 counterexample: `first` on a node with no outgoing edges returns no
handle at all — `self.next[0]` (resp. `(*self.edges.get())[0]`) hits the
`Vec` bounds check and panics, modelled by `none`; there is no recoverable
`EmptyEdgeList` result in the code. -/
theorem first_empty_no_handle_cex :
    (Node.first (⟨"X", []⟩ : Node)).isNone = true ∧
    (RefGraph.Node.first (⟨"X", []⟩ : RefGraph.Node)).isNone = true := by
  decide

/-- C4 amended: `first` on any node whose edge list is empty panics through
the bounds-checked `Vec` index (modelled as `none`), a defined abort rather
than a memory-unsafe out-of-bounds access; it does not return a recoverable
failure value. -/
theorem first_empty_returns_none :
    (∀ n : Node, n.next = [] → Node.first n = none) ∧
    (∀ n : RefGraph.Node, n.edges = [] → RefGraph.Node.first n = none) := by
  constructor
  · intro n h
    simp [Node.first, h]
  · intro n h
    simp [RefGraph.Node.first, h]

/-- Witness for the amended C4 at a concrete edge-less node. -/
theorem first_empty_returns_none_witness :
    Node.first (⟨"X", []⟩ : Node) = none ∧
    RefGraph.Node.first (⟨"X", []⟩ : RefGraph.Node) = none :=
  ⟨first_empty_returns_none.1 _ rfl, first_empty_returns_none.2 _ rfl⟩

/-- C5: on the built graph, `first` applied to the root returns the handle
of cell 1, whose label is "B". -/
theorem first_edge_of_root_is_B :
    Node.first (getNode init.1 init.2) = some 1 ∧
    (getNode init.1 1).datum = "B" := by
  decide

/-- C6: `traverse` started with an empty seen set at any node whose edge
list is empty passes exactly that node's label to the visitor once and
returns. -/
theorem traverse_single_node (g : Heap) (i : Nat)
    (h : (getNode g i).next = []) :
    traverse g i [] = ([(getNode g i).datum], [(getNode g i).datum]) := by
  show traverseF g (g.length + 1) i [] = _
  rw [traverseF_succ_eq]
  simp [h, traverseChildren]

/-- Witness for C6 at the built graph's edge-less node "B". -/
theorem traverse_single_node_witness :
    traverse init.1 1 [] = (["B"], ["B"]) := by
  have h := traverse_single_node init.1 1 (by decide)
  simpa using h

/-- C7: the state-threading traversal returns the heap it was given — it
mutates no label and no edge list — so a second `traverse` of the built
graph with a fresh empty seen set yields the identical visit sequence. -/
theorem traverse_readonly_idempotent (g : Heap) (i : Nat) (seen : List String) :
    (traverseS (bound g) g i seen).1 = g ∧
    (traverseS (bound g) (traverseS (bound g) g i []).1 i []).2.1 =
      (traverseS (bound g) g i []).2.1 := by
  simp [traverseS_eq]

/-- C8: the three ownership variants are behaviourally equivalent: the
traversals agree on converted heaps at every fuel, the three builders build
the same six-cell topology with the same root, and traversal order and the
first-edge label of the root coincide on the built graph. -/
theorem variants_equivalent :
    (∀ (g : RcRefcellGraph.Heap) (fuel i : Nat) (seen : List String),
      RcGraph.traverseF (g.map rcOfRcRefcell) fuel i seen =
        RcRefcellGraph.traverseF g fuel i seen) ∧
    (∀ (g : RcRefcellGraph.Heap) (fuel i : Nat) (seen : List String),
      RefGraph.traverseF (g.map refOfRcRefcell) fuel i seen =
        RcRefcellGraph.traverseF g fuel i seen) ∧
    RcGraph.init.1 = RcRefcellGraph.init.1.map rcOfRcRefcell ∧
    RefGraph.init.1 = RcRefcellGraph.init.1.map refOfRcRefcell ∧
    RcGraph.init.2 = RcRefcellGraph.init.2 ∧
    RefGraph.init.2 = RcRefcellGraph.init.2 ∧
    RcRefcellGraph.init.1.length = 6 ∧
    (RcGraph.traverse RcGraph.init.1 RcGraph.init.2 []).1 =
      (traverse init.1 init.2 []).1 ∧
    (RefGraph.traverse RefGraph.init.1 RefGraph.init.2 []).1 =
      (traverse init.1 init.2 []).1 ∧
    RcGraph.Node.first (RcGraph.getNode RcGraph.init.1 RcGraph.init.2) = some 1 ∧
    RefGraph.Node.first (RefGraph.getNode RefGraph.init.1 RefGraph.init.2) = some 1 ∧
    Node.first (getNode init.1 init.2) = some 1 ∧
    (RcGraph.getNode RcGraph.init.1 1).datum = "B" ∧
    (RefGraph.getNode RefGraph.init.1 1).datum = "B" ∧
    (getNode init.1 1).datum = "B" :=
  ⟨fun g => rcTraverseF_map g, fun g => refTraverseF_map g, by decide⟩

/-- C9: with a visitor that can fail, the failure propagates out of the
recursion at once: the seen set ends as the initial one extended by exactly
the successfully visited labels (no rollback, and the failing node's label
is not inserted); an always-succeeding visitor reproduces `traverseF`
exactly with no failure; and on the built graph a visitor failing at "E"
stops the traversal at visits A, B, C — F and D are abandoned. -/
theorem visitor_failure_fail_fast :
    (∀ (ε : Type) (f : String → Except ε Unit) (g : Heap) (fuel i : Nat)
        (seen : List String),
      (traverseE g f fuel i seen).2.1 = seen ++ (traverseE g f fuel i seen).1) ∧
    (∀ (ε : Type) (g : Heap) (fuel i : Nat) (seen : List String),
      traverseE g (fun _ => (Except.ok () : Except ε Unit)) fuel i seen =
        ((traverseF g fuel i seen).1, (traverseF g fuel i seen).2, none)) ∧
    traverseE init.1 (fun l => if l = "E" then Except.error () else Except.ok ())
        (bound init.1) init.2 [] = (["A", "B", "C"], ["A", "B", "C"], some ()) := by
  refine ⟨fun ε f g fuel i seen => traverseE_seen g f fuel i seen,
          fun ε g fuel i seen => traverseE_ok g fuel i seen, ?_⟩
  decide

/-- C10: if the start node's label is already in the seen set, `traverse`
makes no visit and leaves the seen set unchanged; in general the final seen
set is the initial one followed by exactly the visited labels, so a label is
seen afterwards iff it was seen before or visited in this call. -/
theorem seen_set_accounting (g : Heap) (i : Nat) (seen : List String) :
    ((getNode g i).datum ∈ seen → traverse g i seen = ([], seen)) ∧
    (traverse g i seen).2 = seen ++ (traverse g i seen).1 ∧
    (∀ l, l ∈ (traverse g i seen).2 ↔ l ∈ seen ∨ l ∈ (traverse g i seen).1) := by
  refine ⟨?_, ?_, ?_⟩
  · intro hseen
    show traverseF g (g.length + 1) i seen = ([], seen)
    rw [traverseF_succ_eq, if_pos hseen]
  · exact traverseF_seen g (bound g) i seen
  · intro l
    show l ∈ (traverseF g (bound g) i seen).2 ↔
      l ∈ seen ∨ l ∈ (traverseF g (bound g) i seen).1
    rw [traverseF_seen g (bound g) i seen]
    simp [List.mem_append]

/-- Witness for C10 at the built graph: root already seen, and the label
accounting instantiated at "D". -/
theorem seen_set_accounting_witness :
    traverse init.1 init.2 ["A"] = ([], ["A"]) ∧
    (traverse init.1 init.2 []).2 = [] ++ (traverse init.1 init.2 []).1 ∧
    ("D" ∈ (traverse init.1 init.2 []).2 ↔
      "D" ∈ ([] : List String) ∨ "D" ∈ (traverse init.1 init.2 []).1) :=
  ⟨(seen_set_accounting init.1 init.2 ["A"]).1 (by decide),
   (seen_set_accounting init.1 init.2 []).2.1,
   (seen_set_accounting init.1 init.2 []).2.2 "D"⟩

end Graphs
